import Mathlib

/-!
Verification of the quarterly-to-daily alignment core and the derived-metric
calculator of `dong/company_financials.py`, together with the batch error
routing of `dong/gemini_finance.py`.

Modelling conventions:
* pandas timestamps are totally ordered and are modelled as integers;
* a dataframe with a date index and a set of metric columns is modelled as a
  list of rows `(date, column → Option value)`, where `none` models a pandas
  `NaN` cell (a missing value);
* the column set `κ` and the cell value type `α` are parameters, since every
  pandas operation used by the source acts column-wise and cell-wise.
-/

namespace Danta

/-- `orE x y` is `x` if it carries a value, otherwise `y`: how a pandas fill
step combines a cell with the carried fill state. -/
def orE {α : Type*} (x y : Option α) : Option α :=
  match x with
  | some v => some v
  | none => y

/-- One row of a dated table: the index date together with the row's cells. -/
abbrev Row (κ α : Type*) := Int × (κ → Option α)

/-- A dated table: a list of rows in index order. -/
abbrev Table (κ α : Type*) := List (Row κ α)

/-- The row of `T` whose date is `t`, or an all-`NaN` row when `t` is not in
the index: pandas `DataFrame.reindex` row semantics on a unique source index
(line 238 and line 244 of `company_financials.py`). -/
def rowLookup {κ α : Type*} (T : Table κ α) (t : Int) : κ → Option α :=
  match T.find? (fun r => r.1 == t) with
  | some r => r.2
  | none => fun _ => none

/-- pandas `DataFrame.reindex(idx)`: one row per date of `idx`, taken from `T`
when the date is present there and all-`NaN` otherwise. -/
def reindexRows {κ α : Type*} (T : Table κ α) (idx : List Int) : Table κ α :=
  idx.map (fun t => (t, rowLookup T t))

/-- Forward fill with an explicit carried state: each cell keeps its own value
when present and otherwise receives the column's carried value; the row then
becomes the new carried state. -/
def ffillAux {κ α : Type*} (carry : κ → Option α) : Table κ α → Table κ α
  | [] => []
  | r :: rest =>
    (r.1, fun c => orE (r.2 c) (carry c)) ::
      ffillAux (fun c => orE (r.2 c) (carry c)) rest

/-- pandas `DataFrame.ffill()` (line 241): carry the last non-`NaN` value of
each column forward through subsequent rows. -/
def ffill {κ α : Type*} (T : Table κ α) : Table κ α :=
  ffillAux (fun _ => none) T

/-- pandas `DataFrame.bfill()` (line 241): carry the next non-`NaN` value of
each column backward, i.e. forward fill of the reversed table. -/
def bfill {κ α : Type*} (T : Table κ α) : Table κ α :=
  (ffillAux (fun _ => none) T.reverse).reverse

/-- `sort_values(date_col)` (line 233): sort of the rows by the date column. -/
def sortByDate {κ α : Type*} (T : Table κ α) : Table κ α :=
  T.insertionSort (fun a b => a.1 ≤ b.1)

/-- `quarterly_df.index.union(daily_index).sort_values()` (line 237): the
sorted union of the quarterly and daily date indexes, without duplicates. -/
def combinedIndex (qdates D : List Int) : List Int :=
  ((qdates ++ D).insertionSort (fun a b => a ≤ b)).dedup

/-- Lines 231-244 of `company_financials.py` for a nonempty quarterly table:
sort by the date column and set it as index, reindex onto the union of the
quarterly and daily indexes, forward fill then backward fill, and finally
reindex onto exactly the daily index.  (`pd.to_datetime` on line 232 is the
identity here: the date cells are already timestamps, produced by
`pd.Timestamp` at collection time.) -/
def expand_core {κ α : Type*} (Q : Table κ α) (D : List Int) : Table κ α :=
  let Qs := sortByDate Q
  let combined := combinedIndex (Qs.map Prod.fst) D
  let expanded := reindexRows Qs combined
  let filled := bfill (ffill expanded)
  reindexRows filled D

/-- `expand_to_daily` (lines 226-246).  An empty quarterly input returns
`pd.DataFrame(index=daily_index)`, a column-free frame on the daily index,
modelled as a table on `daily_index` whose every cell is `NaN`. -/
def expand_to_daily {κ α : Type*} (Q : Table κ α) (D : List Int) : Table κ α :=
  if Q.isEmpty then D.map (fun d => (d, fun _ => none)) else expand_core Q D

/-- The values present in column `c` of `T`, in row order. -/
def colVals {κ α : Type*} (c : κ) (T : Table κ α) : List α :=
  T.filterMap (fun r => r.2 c)

/-- The value of column `c` at the latest row of `T` dated `≤ d` that carries
a value (for a date-sorted `T`). -/
def lastLE {κ α : Type*} (T : Table κ α) (d : Int) (c : κ) : Option α :=
  (colVals c (T.filter (fun r => decide (r.1 ≤ d)))).getLast?

/-- The value of column `c` at the earliest row of `T` dated after `d` that
carries a value (for a date-sorted `T`). -/
def firstGT {κ α : Type*} (T : Table κ α) (d : Int) (c : κ) : Option α :=
  (colVals c (T.filter (fun r => decide (d < r.1)))).head?

/-- The latest quarter end date of `Q` on or before `d`, if any. -/
def latestQdateLE {κ α : Type*} (Q : Table κ α) (d : Int) : Option Int :=
  ((Q.map Prod.fst).filter (fun t => decide (t ≤ d))).max?

theorem reindexRows_map_fst {κ α : Type*} (T : Table κ α) (idx : List Int) :
    (reindexRows T idx).map Prod.fst = idx := by
  simp [reindexRows, List.map_map, Function.comp_def]

/-- C2: for every daily index `D` and quarterly table `Q`, the aligned table
produced by `expand_to_daily` has index exactly `D` — hence exactly `|D|`
rows — no matter how the quarterly dates relate to `D`. -/
theorem c2_index_preserved {κ α : Type*} (Q : Table κ α) (D : List Int) :
    (expand_to_daily Q D).map Prod.fst = D ∧
    (expand_to_daily Q D).length = D.length := by
  have hmap : (expand_to_daily Q D).map Prod.fst = D := by
    unfold expand_to_daily
    split
    · simp [List.map_map, Function.comp_def]
    · simpa [expand_core] using reindexRows_map_fst _ D
  refine ⟨hmap, ?_⟩
  calc (expand_to_daily Q D).length
      = ((expand_to_daily Q D).map Prod.fst).length := (List.length_map _ _).symm
    _ = D.length := by rw [hmap]

/-- C6: calling the aligner with an empty quarterly table yields a table whose
index is exactly `D` and whose every cell is a missing value: the degenerate
case returns an empty/no-value aligned table rather than attempting a fill or
raising an error. -/
theorem c6_empty_quarterly {κ α : Type*} (D : List Int) (c : κ) :
    (expand_to_daily ([] : Table κ α) D).map Prod.fst = D ∧
    (expand_to_daily ([] : Table κ α) D).map (fun r => r.2 c) =
      D.map (fun _ => none) := by
  constructor <;> simp [expand_to_daily, List.map_map, Function.comp_def]

theorem orE_none_right {α : Type*} (x : Option α) : orE x none = x := by
  cases x <;> rfl

theorem orE_some_left {α : Type*} (v : α) (y : Option α) : orE (some v) y = some v := rfl

theorem orE_none_left {α : Type*} (y : Option α) : orE none y = y := rfl

/-- The forward-fill state carried after passing over `X`, starting from `a`. -/
def carryFold {κ α : Type*} (a : κ → Option α) (X : Table κ α) : κ → Option α :=
  X.foldl (fun s r => fun c => orE (r.2 c) (s c)) a

theorem carryFold_cons {κ α : Type*} (a : κ → Option α) (r : Row κ α) (X : Table κ α) :
    carryFold a (r :: X) = carryFold (fun c => orE (r.2 c) (a c)) X := rfl

theorem carryFold_concat {κ α : Type*} (a : κ → Option α) (X : Table κ α) (r : Row κ α) :
    carryFold a (X ++ [r]) = fun c => orE (r.2 c) (carryFold a X c) := by
  simp [carryFold, List.foldl_append]

theorem ffillAux_map_fst {κ α : Type*} (a : κ → Option α) (T : Table κ α) :
    (ffillAux a T).map Prod.fst = T.map Prod.fst := by
  induction T generalizing a with
  | nil => rfl
  | cons r rest ih => simp [ffillAux, ih]

theorem bfill_map_fst {κ α : Type*} (T : Table κ α) :
    (bfill T).map Prod.fst = T.map Prod.fst := by
  have h := ffillAux_map_fst (fun _ => (none : Option α)) T.reverse
  calc (bfill T).map Prod.fst
      = ((ffillAux (fun _ => none) T.reverse).map Prod.fst).reverse := by
        simp [bfill, List.map_reverse]
    _ = (T.reverse.map Prod.fst).reverse := by rw [h]
    _ = T.map Prod.fst := by simp [List.map_reverse]

theorem ffillAux_append {κ α : Type*} (a : κ → Option α) (X Y : Table κ α) :
    ffillAux a (X ++ Y) = ffillAux a X ++ ffillAux (carryFold a X) Y := by
  induction X generalizing a with
  | nil => rfl
  | cons r X ih => simp [ffillAux, carryFold_cons, ih]

theorem orE_getLast?_cons {α : Type*} (v : α) (m : List α) (b : Option α) :
    orE (v :: m).getLast? b = orE m.getLast? (some v) := by
  cases m with
  | nil => rfl
  | cons w m' =>
    rw [List.getLast?_cons_cons]
    cases h : (w :: m').getLast? with
    | none => exact absurd (List.getLast?_eq_none_iff.mp h) (by simp)
    | some u => rfl

theorem colVals_cons {κ α : Type*} (c : κ) (r : Row κ α) (T : Table κ α) :
    colVals c (r :: T) =
      match r.2 c with
      | some v => v :: colVals c T
      | none => colVals c T := by
  simp only [colVals, List.filterMap_cons]
  cases r.2 c <;> rfl

theorem colVals_append {κ α : Type*} (c : κ) (A B : Table κ α) :
    colVals c (A ++ B) = colVals c A ++ colVals c B :=
  List.filterMap_append _ _ _

theorem colVals_reverse {κ α : Type*} (c : κ) (T : Table κ α) :
    colVals c T.reverse = (colVals c T).reverse :=
  List.filterMap_reverse _ _

theorem carryFold_apply {κ α : Type*} (a : κ → Option α) (X : Table κ α) (c : κ) :
    carryFold a X c = orE (colVals c X).getLast? (a c) := by
  induction X generalizing a with
  | nil => rfl
  | cons r X ih =>
    rw [carryFold_cons, ih, colVals_cons]
    cases h : r.2 c with
    | none => simp [orE_none_left]
    | some v =>
      simp only []
      rw [orE_getLast?_cons]
      rfl

theorem find?_date_eq_some {κ α : Type*} (T : Table κ α) (d : Int) (v : κ → Option α)
    (hnd : (T.map Prod.fst).Nodup) (hm : (d, v) ∈ T) :
    T.find? (fun r => r.1 == d) = some (d, v) := by
  induction T with
  | nil => cases hm
  | cons r T ih =>
    have hnd' := List.nodup_cons.mp hnd
    rcases List.mem_cons.mp hm with h | h
    · rw [← h]
      exact List.find?_cons_of_pos _ (by simp)
    · have hd : d ∈ T.map Prod.fst := List.mem_map.mpr ⟨(d, v), h, rfl⟩
      have hr : r.1 ≠ d := by
        intro he
        rw [he] at hnd'
        exact hnd'.1 hd
      rw [List.find?_cons_of_neg _ (by simpa using hr)]
      exact ih hnd'.2 h

theorem rowLookup_mem {κ α : Type*} (T : Table κ α) (d : Int) (v : κ → Option α)
    (hnd : (T.map Prod.fst).Nodup) (hm : (d, v) ∈ T) : rowLookup T d = v := by
  simp [rowLookup, find?_date_eq_some T d v hnd hm]

theorem rowLookup_not_mem {κ α : Type*} (T : Table κ α) (t : Int)
    (h : t ∉ T.map Prod.fst) : rowLookup T t = fun _ => none := by
  have hf : T.find? (fun r => r.1 == t) = none := by
    rw [List.find?_eq_none]
    intro x hx hpx
    exact h (List.mem_map.mpr ⟨x, hx, by simpa using hpx⟩)
  simp [rowLookup, hf]

theorem rowLookup_cons_self {κ α : Type*} (q : Row κ α) (T : Table κ α) :
    rowLookup (q :: T) q.1 = q.2 := by
  have hf : List.find? (fun r => r.1 == q.1) (q :: T) = some q :=
    List.find?_cons_of_pos _ (by simp)
  simp [rowLookup, hf]

theorem rowLookup_cons_ne {κ α : Type*} (q : Row κ α) (T : Table κ α) (t : Int)
    (h : q.1 ≠ t) : rowLookup (q :: T) t = rowLookup T t := by
  have hf : List.find? (fun r => r.1 == t) (q :: T) = List.find? (fun r => r.1 == t) T :=
    List.find?_cons_of_neg _ (by simp [h])
  simp [rowLookup, hf]

theorem reindexRows_congr {κ α : Type*} (T T' : Table κ α) (S : List Int)
    (h : ∀ t ∈ S, rowLookup T t = rowLookup T' t) :
    reindexRows T S = reindexRows T' S :=
  List.map_congr_left (fun t ht => by rw [h t ht])

theorem combinedIndex_sorted (qdates D : List Int) :
    (combinedIndex qdates D).Sorted (· < ·) := by
  have hs : ((qdates ++ D).insertionSort (fun a b => a ≤ b)).Sorted (fun a b => a ≤ b) :=
    List.sorted_insertionSort _ _
  have hs2 : (combinedIndex qdates D).Sorted (· ≤ ·) :=
    List.Pairwise.sublist (List.dedup_sublist _) hs
  exact hs2.lt_of_le (List.nodup_dedup _)

theorem combinedIndex_nodup (qdates D : List Int) :
    (combinedIndex qdates D).Nodup :=
  List.nodup_dedup _

theorem mem_combinedIndex {t : Int} (qdates D : List Int) :
    t ∈ combinedIndex qdates D ↔ t ∈ qdates ∨ t ∈ D := by
  rw [combinedIndex, List.mem_dedup, (List.perm_insertionSort _ _).mem_iff,
    List.mem_append]

theorem sortByDate_perm {κ α : Type*} (T : Table κ α) : (sortByDate T).Perm T :=
  List.perm_insertionSort _ T

theorem sortByDate_sorted_le {κ α : Type*} (T : Table κ α) :
    ((sortByDate T).map Prod.fst).Sorted (· ≤ ·) := by
  haveI htot : IsTotal (Row κ α) (fun a b => a.1 ≤ b.1) := ⟨fun a b => le_total a.1 b.1⟩
  haveI htrans : IsTrans (Row κ α) (fun a b => a.1 ≤ b.1) :=
    ⟨fun _ _ _ hab hbc => le_trans hab hbc⟩
  have h : (sortByDate T).Sorted (fun a b => a.1 ≤ b.1) :=
    List.sorted_insertionSort _ T
  exact List.pairwise_map.mpr h

theorem sortByDate_nodup_fst {κ α : Type*} (T : Table κ α)
    (hnd : (T.map Prod.fst).Nodup) : ((sortByDate T).map Prod.fst).Nodup :=
  ((sortByDate_perm T).map Prod.fst).nodup_iff.mpr hnd

theorem sortByDate_sorted_lt {κ α : Type*} (T : Table κ α)
    (hnd : (T.map Prod.fst).Nodup) : ((sortByDate T).map Prod.fst).Sorted (· < ·) :=
  (sortByDate_sorted_le T).lt_of_le (sortByDate_nodup_fst T hnd)

theorem colVals_reindex_nil {κ α : Type*} (c : κ) (T : Table κ α) (S : List Int)
    (h : ∀ t ∈ S, t ∉ T.map Prod.fst) :
    colVals c (reindexRows T S) = [] := by
  rw [colVals, List.filterMap_eq_nil_iff]
  intro r hr
  rcases List.mem_map.mp hr with ⟨t, ht, rfl⟩
  simp [rowLookup_not_mem T t (h t ht)]

theorem colVals_reindex {κ α : Type*} (c : κ) (Q : Table κ α) (S : List Int)
    (hQ : (Q.map Prod.fst).Sorted (· < ·)) (hS : S.Sorted (· < ·)) :
    colVals c (reindexRows Q S) =
      colVals c (Q.filter (fun r => decide (r.1 ∈ S))) := by
  induction Q generalizing S with
  | nil =>
    rw [colVals_reindex_nil c [] S (by simp)]
    simp [colVals]
  | cons q Q ih =>
    have hQgt : ∀ r ∈ Q, q.1 < r.1 := by
      intro r hr
      exact (List.pairwise_cons.mp hQ).1 r.1 (List.mem_map.mpr ⟨r, hr, rfl⟩)
    have hQtail : (Q.map Prod.fst).Sorted (· < ·) := (List.pairwise_cons.mp hQ).2
    by_cases hqS : q.1 ∈ S
    · obtain ⟨S₁, S₂, rfl⟩ := List.append_of_mem hqS
      have hsplit := List.pairwise_append.mp hS
      have hS₁lt : ∀ t ∈ S₁, t < q.1 := fun t ht => hsplit.2.2 t ht q.1 (by simp)
      have hS₂gt : ∀ t ∈ S₂, q.1 < t := (List.pairwise_cons.mp hsplit.2.1).1
      have hS₂ : S₂.Sorted (· < ·) := (List.pairwise_cons.mp hsplit.2.1).2
      have h1 : reindexRows (q :: Q) (S₁ ++ q.1 :: S₂) =
          reindexRows (q :: Q) S₁ ++ (q.1, rowLookup (q :: Q) q.1) :: reindexRows (q :: Q) S₂ := by
        simp [reindexRows]
      have h2 : colVals c (reindexRows (q :: Q) S₁) = [] := by
        apply colVals_reindex_nil
        intro t ht hmem
        have hlt := hS₁lt t ht
        rcases List.mem_cons.mp (show t ∈ q.1 :: Q.map Prod.fst from hmem) with h | h
        · omega
        · rcases List.mem_map.mp h with ⟨r, hr, hrt⟩
          have := hQgt r hr
          omega
      have h3 : reindexRows (q :: Q) S₂ = reindexRows Q S₂ := by
        apply reindexRows_congr
        intro t ht
        exact rowLookup_cons_ne q Q t (by have := hS₂gt t ht; omega)
      have h4 : Q.filter (fun r => decide (r.1 ∈ S₁ ++ q.1 :: S₂)) =
          Q.filter (fun r => decide (r.1 ∈ S₂)) := by
        apply List.filter_congr
        intro r hr
        have hgt := hQgt r hr
        apply decide_eq_decide.mpr
        constructor
        · intro hm
          rcases List.mem_append.mp hm with h | h
          · exact absurd h (by intro h; have := hS₁lt r.1 h; omega)
          · rcases List.mem_cons.mp h with h | h
            · omega
            · exact h
        · intro hm
          exact List.mem_append.mpr (Or.inr (List.mem_cons.mpr (Or.inr hm)))
      have h5 : (q :: Q).filter (fun r => decide (r.1 ∈ S₁ ++ q.1 :: S₂)) =
          q :: Q.filter (fun r => decide (r.1 ∈ S₁ ++ q.1 :: S₂)) := by
        rw [List.filter_cons]
        simp [hqS]
      rw [h1, colVals_append, h2, List.nil_append, h3, rowLookup_cons_self,
        colVals_cons, h5, colVals_cons, ih S₂ hQtail hS₂, h4]
    · have h3 : reindexRows (q :: Q) S = reindexRows Q S := by
        apply reindexRows_congr
        intro t ht
        exact rowLookup_cons_ne q Q t (by intro he; rw [he] at hqS; exact hqS ht)
      have h5 : (q :: Q).filter (fun r => decide (r.1 ∈ S)) =
          Q.filter (fun r => decide (r.1 ∈ S)) := by
        rw [List.filter_cons]
        simp [hqS]
      rw [h3, h5, ih S hQtail hS]

theorem colVals_ffillAux_head? {κ α : Type*} (c : κ) (a : κ → Option α) (T : Table κ α)
    (ha : a c = none) :
    (colVals c (ffillAux a T)).head? = (colVals c T).head? := by
  induction T generalizing a with
  | nil => rfl
  | cons r T ih =>
    have hstep : ffillAux a (r :: T) =
        (r.1, fun c' => orE (r.2 c') (a c')) ::
          ffillAux (fun c' => orE (r.2 c') (a c')) T := rfl
    rw [hstep, colVals_cons, colVals_cons]
    cases h : r.2 c with
    | some v =>
      simp [h, orE_some_left]
    | none =>
      have hv : (fun c' => orE (r.2 c') (a c')) c = none := by simp [h, ha, orE]
      simp only [h, orE_none_left, ha]
      exact ih (fun c' => orE (r.2 c') (a c')) hv

theorem ffill_split {κ α : Type*} (Qs : Table κ α) (U₁ U₂ : List Int) (d : Int) :
    ffill (reindexRows Qs (U₁ ++ d :: U₂)) =
      ffillAux (fun _ => (none : Option α)) (reindexRows Qs U₁) ++
        (d, carryFold (fun _ => none) (reindexRows Qs (U₁ ++ [d]))) ::
          ffillAux (carryFold (fun _ => none) (reindexRows Qs (U₁ ++ [d])))
            (reindexRows Qs U₂) := by
  have hEsplit : reindexRows Qs (U₁ ++ d :: U₂) =
      reindexRows Qs U₁ ++ (d, rowLookup Qs d) :: reindexRows Qs U₂ := by
    simp [reindexRows]
  have hco : carryFold (fun _ => (none : Option α)) (reindexRows Qs (U₁ ++ [d])) =
      fun c => orE (rowLookup Qs d c)
        (carryFold (fun _ => none) (reindexRows Qs U₁) c) := by
    have h : reindexRows Qs (U₁ ++ [d]) =
        reindexRows Qs U₁ ++ [(d, rowLookup Qs d)] := by
      simp [reindexRows]
    rw [h]
    exact carryFold_concat _ _ _
  rw [ffill, hEsplit, ffillAux_append, hco]
  rfl

theorem bfill_split {κ α : Type*} (F₁ F₂ : Table κ α) (d : Int) (fd : κ → Option α) :
    bfill (F₁ ++ (d, fd) :: F₂) =
      (ffillAux
          (fun c => orE (fd c) (carryFold (fun _ => (none : Option α)) F₂.reverse c))
          F₁.reverse).reverse ++
        (d, fun c => orE (fd c) (carryFold (fun _ => none) F₂.reverse c)) ::
          (ffillAux (fun _ => none) F₂.reverse).reverse := by
  rw [bfill]
  have hrev : (F₁ ++ (d, fd) :: F₂).reverse =
      F₂.reverse ++ (d, fd) :: F₁.reverse := by
    simp
  rw [hrev, ffillAux_append]
  have h1 : ffillAux (carryFold (fun _ => (none : Option α)) F₂.reverse)
      ((d, fd) :: F₁.reverse) =
      (d, fun c => orE (fd c) (carryFold (fun _ => none) F₂.reverse c)) ::
        ffillAux (fun c => orE (fd c) (carryFold (fun _ => none) F₂.reverse c))
          F₁.reverse := rfl
  rw [h1]
  simp

theorem carry_at_d {κ α : Type*} (Qs : Table κ α) (U₁ U₂ : List Int) (d : Int) (c : κ)
    (hQsorted : (Qs.map Prod.fst).Sorted (· < ·))
    (hU₁sorted : U₁.Sorted (· < ·))
    (hU₁lt : ∀ x ∈ U₁, x < d)
    (hU₂gt : ∀ y ∈ U₂, d < y)
    (hQsub : ∀ r ∈ Qs, r.1 ∈ U₁ ++ d :: U₂) :
    carryFold (fun _ => (none : Option α)) (reindexRows Qs (U₁ ++ [d])) c =
      lastLE Qs d c := by
  rw [carryFold_apply, orE_none_right]
  have hsorted : (U₁ ++ [d]).Sorted (· < ·) := by
    refine List.pairwise_append.mpr ⟨hU₁sorted, by simp, ?_⟩
    intro a ha b hb
    rw [List.mem_singleton.mp hb]
    exact hU₁lt a ha
  rw [colVals_reindex c Qs (U₁ ++ [d]) hQsorted hsorted]
  have hfc : Qs.filter (fun r => decide (r.1 ∈ U₁ ++ [d])) =
      Qs.filter (fun r => decide (r.1 ≤ d)) := by
    apply List.filter_congr
    intro r hr
    apply decide_eq_decide.mpr
    constructor
    · intro hm
      rcases List.mem_append.mp hm with h | h
      · exact le_of_lt (hU₁lt _ h)
      · rw [List.mem_singleton.mp h]
    · intro hle
      rcases List.mem_append.mp (hQsub r hr) with h | h
      · exact List.mem_append.mpr (Or.inl h)
      · rcases List.mem_cons.mp h with h | h
        · exact List.mem_append.mpr (Or.inr (by simp [h]))
        · exact absurd hle (by have := hU₂gt _ h; omega)
  rw [hfc]
  rfl

theorem back_at_d {κ α : Type*} (Qs : Table κ α) (U₁ U₂ : List Int) (d : Int) (c : κ)
    (hQsorted : (Qs.map Prod.fst).Sorted (· < ·))
    (hU₂sorted : U₂.Sorted (· < ·))
    (hU₁lt : ∀ x ∈ U₁, x < d)
    (hU₂gt : ∀ y ∈ U₂, d < y)
    (hQsub : ∀ r ∈ Qs, r.1 ∈ U₁ ++ d :: U₂)
    (fd : κ → Option α) (hfdc : fd c = none) :
    carryFold (fun _ => (none : Option α)) ((ffillAux fd (reindexRows Qs U₂)).reverse) c =
      firstGT Qs d c := by
  rw [carryFold_apply, orE_none_right, colVals_reverse, List.getLast?_reverse,
    colVals_ffillAux_head? c fd _ hfdc,
    colVals_reindex c Qs U₂ hQsorted hU₂sorted]
  have hfc : Qs.filter (fun r => decide (r.1 ∈ U₂)) =
      Qs.filter (fun r => decide (d < r.1)) := by
    apply List.filter_congr
    intro r hr
    apply decide_eq_decide.mpr
    constructor
    · intro hm
      exact hU₂gt _ hm
    · intro hlt
      rcases List.mem_append.mp (hQsub r hr) with h | h
      · exact absurd hlt (by have := hU₁lt _ h; omega)
      · rcases List.mem_cons.mp h with h | h
        · exact absurd hlt (by omega)
        · exact h
  rw [hfc]
  rfl

theorem map_fst_bfill_ffill_reindex {κ α : Type*} (Qs : Table κ α) (U : List Int) :
    (bfill (ffill (reindexRows Qs U))).map Prod.fst = U := by
  rw [bfill_map_fst, ffill, ffillAux_map_fst, reindexRows_map_fst]

theorem filled_lookup {κ α : Type*} (Qs : Table κ α) (U : List Int) (d : Int) (c : κ)
    (hQsorted : (Qs.map Prod.fst).Sorted (· < ·))
    (hU : U.Sorted (· < ·)) (hUnodup : U.Nodup)
    (hQsub : ∀ r ∈ Qs, r.1 ∈ U) (hdU : d ∈ U) :
    rowLookup (bfill (ffill (reindexRows Qs U))) d c =
      orE (lastLE Qs d c) (firstGT Qs d c) := by
  obtain ⟨U₁, U₂, rfl⟩ := List.append_of_mem hdU
  have hsp := List.pairwise_append.mp hU
  have hU₁lt : ∀ x ∈ U₁, x < d := fun x hx => hsp.2.2 x hx d (List.mem_cons_self _ _)
  have hU₂gt : ∀ y ∈ U₂, d < y := (List.pairwise_cons.mp hsp.2.1).1
  have hU₂sorted : U₂.Sorted (· < ·) := (List.pairwise_cons.mp hsp.2.1).2
  have hU₁sorted : U₁.Sorted (· < ·) := hsp.1
  have hfd : carryFold (fun _ => (none : Option α)) (reindexRows Qs (U₁ ++ [d])) c =
      lastLE Qs d c :=
    carry_at_d Qs U₁ U₂ d c hQsorted hU₁sorted hU₁lt hU₂gt hQsub
  have hmem : (d, fun c' =>
        orE (carryFold (fun _ => (none : Option α)) (reindexRows Qs (U₁ ++ [d])) c')
          (carryFold (fun _ => (none : Option α))
            ((ffillAux (carryFold (fun _ => (none : Option α)) (reindexRows Qs (U₁ ++ [d])))
              (reindexRows Qs U₂)).reverse) c')) ∈
      bfill (ffill (reindexRows Qs (U₁ ++ d :: U₂))) := by
    rw [ffill_split, bfill_split]
    exact List.mem_append.mpr (Or.inr (List.mem_cons_self _ _))
  have hndB : ((bfill (ffill (reindexRows Qs (U₁ ++ d :: U₂)))).map Prod.fst).Nodup := by
    rw [map_fst_bfill_ffill_reindex]
    exact hUnodup
  rw [rowLookup_mem _ d _ hndB hmem]
  show orE (carryFold (fun _ => (none : Option α)) (reindexRows Qs (U₁ ++ [d])) c)
      (carryFold (fun _ => (none : Option α))
        ((ffillAux (carryFold (fun _ => (none : Option α)) (reindexRows Qs (U₁ ++ [d])))
          (reindexRows Qs U₂)).reverse) c) = _
  rw [hfd]
  cases hl : lastLE Qs d c with
  | some v => rfl
  | none =>
    have hfdc : carryFold (fun _ => (none : Option α)) (reindexRows Qs (U₁ ++ [d])) c = none :=
      hfd.trans hl
    rw [back_at_d Qs U₁ U₂ d c hQsorted hU₂sorted hU₁lt hU₂gt hQsub _ hfdc]

/-- Per-column characterization of the aligner: for a quarterly table with
distinct quarter end dates and at least one quarter, the aligned value of
metric `c` on each day `d` of the daily index is the value at the latest
quarter on or before `d` that carries a value, and otherwise the value at the
earliest quarter after `d` that carries one. -/
theorem expand_col {κ α : Type*} (Q : Table κ α) (D : List Int) (c : κ)
    (hnd : (Q.map Prod.fst).Nodup) (hne : Q ≠ []) :
    (expand_to_daily Q D).map (fun r => r.2 c) =
      D.map (fun d => orE (lastLE (sortByDate Q) d c) (firstGT (sortByDate Q) d c)) := by
  have hemp : Q.isEmpty = false := by
    cases Q with
    | nil => exact absurd rfl hne
    | cons a l => rfl
  have hstep : expand_to_daily Q D =
      reindexRows
        (bfill (ffill (reindexRows (sortByDate Q)
          (combinedIndex ((sortByDate Q).map Prod.fst) D)))) D := by
    simp [expand_to_daily, hemp, expand_core]
  rw [hstep, reindexRows, List.map_map]
  apply List.map_congr_left
  intro d hd
  have hQsorted := sortByDate_sorted_lt Q hnd
  have hU := combinedIndex_sorted ((sortByDate Q).map Prod.fst) D
  have hUnodup := combinedIndex_nodup ((sortByDate Q).map Prod.fst) D
  have hQsub : ∀ r ∈ sortByDate Q,
      r.1 ∈ combinedIndex ((sortByDate Q).map Prod.fst) D := by
    intro r hr
    exact (mem_combinedIndex _ _).mpr (Or.inl (List.mem_map.mpr ⟨r, hr, rfl⟩))
  have hdU : d ∈ combinedIndex ((sortByDate Q).map Prod.fst) D :=
    (mem_combinedIndex _ _).mpr (Or.inr hd)
  exact filled_lookup (sortByDate Q) _ d c hQsorted hU hUnodup hQsub hdU

theorem orE_eq_none {α : Type*} {x y : Option α} (h : orE x y = none) :
    x = none ∧ y = none := by
  cases x with
  | some v => exact absurd h (by simp [orE])
  | none => exact ⟨rfl, h⟩

/-- C1: counterexample to the claim as stated.  In the quarterly table with
quarters `10 ↦ 5` and `20 ↦ NaN` and daily index `[30]`, the latest
quarter_end_date on or before day 30 is quarter 20, whose metric value is
missing; yet the aligned value on day 30 is `5`, carried from quarter 10.
The fill is per present value, not per latest quarter row, so the claim's
"value from the latest quarter_end_date ≤ d" fails when that quarter's metric
cell is missing. -/
theorem c1_stated_counterexample :
    latestQdateLE
        ([((10 : Int), fun _ => some (5 : ℚ)), (20, fun _ => none)] : Table Unit ℚ) 30 =
      some 20 ∧
    rowLookup
        ([((10 : Int), fun _ => some (5 : ℚ)), (20, fun _ => none)] : Table Unit ℚ) 20 () =
      none ∧
    (expand_to_daily
        ([((10 : Int), fun _ => some (5 : ℚ)), (20, fun _ => none)] : Table Unit ℚ)
        [30]).map (fun r => r.2 ()) = [some 5] :=
  ⟨by decide, by decide, by decide⟩

/-- C1 (amended): for every quarterly table with distinct quarter end dates and
at least one quarter, the aligned value of a metric on each day `d` is the
value from the latest quarter on or before `d` *at which the metric is
present*; if no such quarter exists, the value from the earliest quarter after
`d` at which the metric is present; and no day is left without a value once at
least one quarter has a present value for that metric. -/
theorem c1_backfill_characterization {κ α : Type*} (Q : Table κ α) (D : List Int)
    (c : κ) (hnd : (Q.map Prod.fst).Nodup) (hne : Q ≠ []) :
    (expand_to_daily Q D).map (fun r => r.2 c) =
      D.map (fun d => orE (lastLE (sortByDate Q) d c) (firstGT (sortByDate Q) d c)) ∧
    ((∃ q ∈ Q, (q.2 c).isSome = true) →
      none ∉ (expand_to_daily Q D).map (fun r => r.2 c)) := by
  refine ⟨expand_col Q D c hnd hne, ?_⟩
  rintro ⟨q0, hq0, hq0some⟩ hmemnone
  rw [expand_col Q D c hnd hne] at hmemnone
  rcases List.mem_map.mp hmemnone with ⟨d, hd, hval⟩
  have hq0' : q0 ∈ sortByDate Q := (sortByDate_perm Q).mem_iff.mpr hq0
  obtain ⟨v, hv⟩ := Option.isSome_iff_exists.mp hq0some
  have hnone := orE_eq_none hval
  rcases le_or_lt q0.1 d with hle | hgt
  · have hmemf : q0 ∈ (sortByDate Q).filter (fun r => decide (r.1 ≤ d)) :=
      List.mem_filter.mpr ⟨hq0', by simpa using hle⟩
    have hvmem : v ∈ colVals c ((sortByDate Q).filter (fun r => decide (r.1 ≤ d))) :=
      List.mem_filterMap.mpr ⟨q0, hmemf, hv⟩
    have h1 := hnone.1
    simp only [lastLE] at h1
    rw [List.getLast?_eq_none_iff] at h1
    rw [h1] at hvmem
    cases hvmem
  · have hmemf : q0 ∈ (sortByDate Q).filter (fun r => decide (d < r.1)) :=
      List.mem_filter.mpr ⟨hq0', by simpa using hgt⟩
    have hvmem : v ∈ colVals c ((sortByDate Q).filter (fun r => decide (d < r.1))) :=
      List.mem_filterMap.mpr ⟨q0, hmemf, hv⟩
    have h2 := hnone.2
    simp only [firstGT] at h2
    rw [List.head?_eq_none_iff] at h2
    rw [h2] at hvmem
    cases hvmem

/-- Witness for C1 (amended) on a concrete three-quarter table (with a missing
middle value) and a four-day index. -/
theorem c1_backfill_characterization_witness :
    ((([((10 : Int), fun _ => some (1 : ℚ)), (20, fun _ => none),
        (30, fun _ => some 3)] : Table Unit ℚ).map Prod.fst).Nodup ∧
      ([((10 : Int), fun _ => some (1 : ℚ)), (20, fun _ => none),
        (30, fun _ => some 3)] : Table Unit ℚ) ≠ []) ∧
    ((expand_to_daily
        ([((10 : Int), fun _ => some (1 : ℚ)), (20, fun _ => none),
          (30, fun _ => some 3)] : Table Unit ℚ) [5, 15, 25, 35]).map (fun r => r.2 ()) =
      ([5, 15, 25, 35] : List Int).map (fun d =>
        orE (lastLE (sortByDate ([((10 : Int), fun _ => some (1 : ℚ)), (20, fun _ => none),
            (30, fun _ => some 3)] : Table Unit ℚ)) d ())
          (firstGT (sortByDate ([((10 : Int), fun _ => some (1 : ℚ)), (20, fun _ => none),
            (30, fun _ => some 3)] : Table Unit ℚ)) d ())) ∧
      ((∃ q ∈ ([((10 : Int), fun _ => some (1 : ℚ)), (20, fun _ => none),
          (30, fun _ => some 3)] : Table Unit ℚ), (q.2 ()).isSome = true) →
        none ∉ (expand_to_daily
          ([((10 : Int), fun _ => some (1 : ℚ)), (20, fun _ => none),
            (30, fun _ => some 3)] : Table Unit ℚ) [5, 15, 25, 35]).map (fun r => r.2 ()))) :=
  ⟨⟨by decide, by simp⟩,
    c1_backfill_characterization _ [5, 15, 25, 35] () (by decide) (by simp)⟩

/-- C7: if the quarterly table has exactly one quarter whose value for a metric
is `v`, the aligned table gives `v` for that metric on every day of the daily
index. -/
theorem c7_single_quarter {κ α : Type*} (t : Int) (r : κ → Option α) (c : κ) (v : α)
    (hv : r c = some v) (D : List Int) :
    (expand_to_daily ([(t, r)] : Table κ α) D).map (fun row => row.2 c) =
      D.map (fun _ => some v) := by
  rw [expand_col [(t, r)] D c (by simp) (by simp)]
  apply List.map_congr_left
  intro d hd
  have hs : sortByDate ([(t, r)] : Table κ α) = [(t, r)] := rfl
  rcases le_or_lt t d with hle | hgt
  · have h1 : lastLE (sortByDate ([(t, r)] : Table κ α)) d c = some v := by
      rw [hs]
      simp [lastLE, colVals, List.filter_cons, hle, hv]
    rw [h1]
    rfl
  · have h1 : lastLE (sortByDate ([(t, r)] : Table κ α)) d c = none := by
      rw [hs]
      simp [lastLE, colVals, List.filter_cons, not_le.mpr hgt]
    have h2 : firstGT (sortByDate ([(t, r)] : Table κ α)) d c = some v := by
      rw [hs]
      simp [firstGT, colVals, List.filter_cons, hgt, hv]
    rw [h1, h2]
    rfl

/-- Witness for C7: a single quarter dated 10 with value 7 propagates to the
days 1, 10 and 99. -/
theorem c7_single_quarter_witness :
    ((fun _ : Unit => some (7 : ℚ)) () = some 7) ∧
    (expand_to_daily ([((10 : Int), fun _ => some (7 : ℚ))] : Table Unit ℚ)
        [1, 10, 99]).map (fun row => row.2 ()) =
      ([1, 10, 99] : List Int).map (fun _ => some (7 : ℚ)) :=
  ⟨rfl, c7_single_quarter 10 (fun _ : Unit => some (7 : ℚ)) () 7 rfl [1, 10, 99]⟩

/-- Python truthiness of a numeric cell: `None` and `0` are falsy.  (A pandas
`NaN` cell is truthy in Python, but every arithmetic result built from a `NaN`
operand is again `NaN`, i.e. a missing value, so modelling the `NaN` cell as
`none` gives the same observable no-value outcome.) -/
def truthy (x : Option ℚ) : Bool :=
  match x with
  | none => false
  | some v => decide (v ≠ 0)

/-- Lines 81-83 of `company_financials.py`:
`if revenue and operating_income and revenue != 0:` — the margin is computed
only when both cells are truthy and revenue is nonzero. -/
def operating_margin (revenue operating_income : Option ℚ) : Option ℚ :=
  if truthy revenue && truthy operating_income && decide (revenue ≠ some 0) then
    some (operating_income.getD 0 / revenue.getD 0 * 100)
  else none

/-- One quarter of the fetched income statement: the three metric cells read at
lines 77-79. -/
structure QuarterIncome where
  revenue : Option ℚ
  operating_income : Option ℚ
  net_income : Option ℚ

/-- One row of the quarterly financials table assembled at lines 85-91. -/
structure QuarterRecord where
  quarter_date : Int
  revenue : Option ℚ
  operating_income : Option ℚ
  operating_margin : Option ℚ
  net_income : Option ℚ

/-- `get_quarterly_financials` (lines 61-98): one record per statement column;
an exception from the fetch is caught and yields an empty table (lines 95-98),
as does an empty statement (lines 69-71). -/
def get_quarterly_financials
    (fetch : Except String (List (Int × QuarterIncome))) : List QuarterRecord :=
  match fetch with
  | .error _ => []
  | .ok stmt =>
      stmt.map (fun q =>
        ⟨q.1, q.2.revenue, q.2.operating_income,
          operating_margin q.2.revenue q.2.operating_income, q.2.net_income⟩)

/-- `sorted(income_stmt.columns)` at line 194 (and `sort_values("분기일자")` at
line 312): quarters in chronological order. -/
def sortQuarters (q : List (Int × Option ℚ)) : List (Int × Option ℚ) :=
  q.insertionSort (fun a b => a.1 ≤ b.1)

/-- The inner summing loop of `calculate_trailing_eps` (lines 199-208): running
sum and count of the present net income values over the quarter window
`[max(0, i-3) .. i]` (Lean's natural subtraction already truncates at 0). -/
def ttm_window (ni : List (Option ℚ)) (i : Nat) : ℚ × Nat :=
  (List.range' (i - 3) (i + 1 - (i - 3))).foldl
    (fun acc j =>
      match ni.getD j none with
      | some v => (acc.1 + v, acc.2 + 1)
      | none => acc)
    (0, 0)

/-- `calculate_trailing_eps` (lines 183-223): an exception anywhere in the body
is caught and yields an empty table (222-223); absent shares yield an empty
table (188-191); otherwise the quarters are sorted chronologically (194) and,
for each index, a TTM row is produced exactly when the window holds at least
one present net income value and shares are positive, with value
`(sum * (4 / count)) / shares` (210-218). -/
def calculate_trailing_eps
    (fetch : Except String ((List (Int × Option ℚ)) × Option ℚ)) :
    List (Int × ℚ) :=
  match fetch with
  | .error _ => []
  | .ok (stmt, shares) =>
    match shares with
    | none => []
    | some sh =>
      (List.range (sortQuarters stmt).length).filterMap (fun i =>
        if 0 < (ttm_window ((sortQuarters stmt).map Prod.snd) i).2 ∧ 0 < sh then
          some (((sortQuarters stmt).getD i (0, none)).1,
            (ttm_window ((sortQuarters stmt).map Prod.snd) i).1 *
              (4 / (((ttm_window ((sortQuarters stmt).map Prod.snd) i).2 : ℚ))) / sh)
        else none)

/-- The present net income values among quarters `[max(0,i-3) .. i]` of a
chronologically ordered quarter list, as the spec describes the TTM window. -/
def presentWindow (q : List (Int × Option ℚ)) (i : Nat) : List ℚ :=
  (((q.map Prod.snd).drop (i - 3)).take (i + 1 - (i - 3))).filterMap id

/-- The spec's description of the TTM EPS table over a chronologically ordered
quarter list: one row per quarter whose window holds at least one present
value (with positive shares), valued `sum * (4 / count) / shares`. -/
def ttmSpec (q : List (Int × Option ℚ)) (sh : ℚ) : List (Int × ℚ) :=
  (List.range q.length).filterMap (fun i =>
    if presentWindow q i ≠ [] ∧ 0 < sh then
      some ((q.getD i (0, none)).1,
        (presentWindow q i).sum * (4 / ((presentWindow q i).length : ℚ)) / sh)
    else none)

/-- Lines 302-307 of `company_financials.py`, cell-wise: the daily PER is the
price divided by the aligned TTM EPS, then removed when negative or above
1000.  A zero EPS denominator yields `±inf` or `NaN` in pandas float
arithmetic, every case of which is removed by the same rules, hence `none`. -/
def daily_per (price ttm : Option ℚ) : Option ℚ :=
  match price, ttm with
  | some p, some e =>
      if e = 0 then none
      else if p / e < 0 ∨ 1000 < p / e then none else some (p / e)
  | _, _ => none

/-- The YoY growth loop of `process_company` (lines 316-336) over the sorted
quarterly table, with the revenue column as `.1` and the net income column as
`.2`: for each row index at least 4, each column's growth is computed from the
value four rows earlier exactly when both values are present and the earlier
one is nonzero; all other cells stay `None`.  The source processes the two
columns with duplicated code, modelled by the two parallel components. -/
def yoy_pair (rows : List (Option ℚ × Option ℚ)) : List (Option ℚ × Option ℚ) :=
  (List.range rows.length).map (fun idx =>
    if 4 ≤ idx then
      ((match (rows.getD idx (none, none)).1, (rows.getD (idx - 4) (none, none)).1 with
        | some curr, some prev =>
            if prev ≠ 0 then some ((curr - prev) / |prev| * 100) else none
        | _, _ => none),
       (match (rows.getD idx (none, none)).2, (rows.getD (idx - 4) (none, none)).2 with
        | some curr, some prev =>
            if prev ≠ 0 then some ((curr - prev) / |prev| * 100) else none
        | _, _ => none))
    else (none, none))

/-- The claim's single-column YoY description: undefined for the first four
quarters; from index 4 on, `(curr - prev) / |prev| * 100` against the value four
quarters earlier whenever both are present and the earlier one is nonzero. -/
def yoySingle (vals : List (Option ℚ)) : List (Option ℚ) :=
  List.replicate (min 4 vals.length) none ++
    List.zipWith (fun curr prev =>
      match curr, prev with
      | some c, some p => if p ≠ 0 then some ((c - p) / |p| * 100) else none
      | _, _ => none) (vals.drop 4) vals

theorem sum_count_foldl (l : List (Option ℚ)) (a : ℚ) (b : Nat) :
    l.foldl (fun acc v =>
      match v with
      | some x => (acc.1 + x, acc.2 + 1)
      | none => acc) (a, b) =
    (a + (l.filterMap id).sum, b + (l.filterMap id).length) := by
  induction l generalizing a b with
  | nil => simp
  | cons v l ih =>
    cases v with
    | none => simpa using ih a b
    | some x =>
      simp only [List.foldl_cons, List.filterMap_cons, id]
      rw [ih, List.sum_cons, List.length_cons]
      refine Prod.ext ?_ ?_
      · show a + x + _ = a + (x + _)
        ring
      · show b + 1 + _ = b + (_ + 1)
        omega

theorem range'_getD_slice {β : Type*} (l : List β) (dflt : β) (s n : Nat)
    (h : s + n ≤ l.length) :
    (List.range' s n).map (fun j => l.getD j dflt) = (l.drop s).take n := by
  induction n generalizing s with
  | zero => simp
  | succ n ih =>
    rw [List.range'_succ]
    simp only [List.map_cons]
    have hs : s < l.length := by omega
    rw [List.getD_eq_getElem l dflt hs, List.drop_eq_getElem_cons hs,
      List.take_succ_cons]
    congr 1
    exact ih (s + 1) (by omega)

theorem ttm_window_char (ni : List (Option ℚ)) (i : Nat) (h : i < ni.length) :
    ttm_window ni i =
      ((((ni.drop (i - 3)).take (i + 1 - (i - 3))).filterMap id).sum,
       (((ni.drop (i - 3)).take (i + 1 - (i - 3))).filterMap id).length) := by
  have hle : (i - 3) + (i + 1 - (i - 3)) ≤ ni.length := by omega
  have hmap := range'_getD_slice ni none (i - 3) (i + 1 - (i - 3)) hle
  have h1 : ttm_window ni i =
      ((List.range' (i - 3) (i + 1 - (i - 3))).map (fun j => ni.getD j none)).foldl
        (fun acc v =>
          match v with
          | some x => (acc.1 + x, acc.2 + 1)
          | none => acc) (0, 0) := by
    rw [ttm_window, List.foldl_map]
  rw [h1, hmap, sum_count_foldl]
  simp

theorem calculate_trailing_eps_spec (stmt : List (Int × Option ℚ)) (sh : ℚ) :
    calculate_trailing_eps (.ok (stmt, some sh)) = ttmSpec (sortQuarters stmt) sh := by
  simp only [calculate_trailing_eps, ttmSpec]
  apply List.filterMap_congr
  intro i hi
  have hlen : i < ((sortQuarters stmt).map Prod.snd).length := by
    rw [List.length_map]
    exact List.mem_range.mp hi
  rw [ttm_window_char _ i hlen]
  apply if_congr ?_ rfl rfl
  exact and_congr (by rw [List.length_pos]; exact Iff.rfl) Iff.rfl

/-- C3: TTM EPS refines the spec description — for each quarter index `i` of
the chronologically sorted statement, a TTM row exists exactly when the window
`[max(0,i-3) .. i]` holds at least one present net income value and shares are
positive, with value `sum * (4 / count) / shares`; an absent shares figure, a
non-positive shares figure, or a failed fetch produces no rows at all; net
income `[100,100,100,100]` with shares 100 gives TTM EPS 4 at quarter 3 (and
each earlier quarter), and a lone quarter with net income 100 and shares 100
gives TTM EPS 4. -/
theorem c3_ttm_eps (stmt : List (Int × Option ℚ)) (sh : ℚ) (e : String) :
    calculate_trailing_eps (.ok (stmt, some sh)) = ttmSpec (sortQuarters stmt) sh ∧
    calculate_trailing_eps (.ok (stmt, none)) = [] ∧
    calculate_trailing_eps (.error e) = [] ∧
    calculate_trailing_eps (.ok (stmt, some (-1))) = [] ∧
    calculate_trailing_eps
        (.ok ([(0, some 100), (1, some 100), (2, some 100), (3, some 100)], some 100)) =
      [(0, 4), (1, 4), (2, 4), (3, 4)] ∧
    calculate_trailing_eps (.ok ([(0, some 100)], some 100)) = [(0, 4)] := by
  refine ⟨calculate_trailing_eps_spec stmt sh, rfl, rfl, ?_, ?_, ?_⟩
  · simp only [calculate_trailing_eps]
    rw [List.filterMap_eq_nil_iff]
    intro i _
    simp [show ¬ (0 < (-1 : ℚ)) from by decide]
  · have h1 : List.range' 0 1 = [0] := by decide
    have h2 : List.range' 0 2 = [0, 1] := by decide
    have h3 : List.range' 0 3 = [0, 1, 2] := by decide
    have h4 : List.range' 0 4 = [0, 1, 2, 3] := by decide
    norm_num [calculate_trailing_eps, ttm_window, sortQuarters, List.insertionSort,
      List.orderedInsert, List.range_succ, List.filterMap_cons, h1, h2, h3, h4]
  · have h1 : List.range' 0 1 = [0] := by decide
    norm_num [calculate_trailing_eps, ttm_window, sortQuarters, List.insertionSort,
      List.orderedInsert, List.range_succ, List.filterMap_cons, h1]

/-- C4: wherever a price and a (nonzero) daily-aligned TTM EPS are both
present, the daily PER is `price / ttm_eps`, removed exactly when it is
negative or above 1000; in particular price 10 with EPS −1 yields no value
(not −10), and price 10 with EPS 1/1000 yields no value (not 10000). -/
theorem c4_per_clipping (p e : ℚ) (he : e ≠ 0) :
    (daily_per (some p) (some e) = none ↔ (p / e < 0 ∨ 1000 < p / e)) ∧
    (¬(p / e < 0 ∨ 1000 < p / e) → daily_per (some p) (some e) = some (p / e)) ∧
    daily_per (some 10) (some (-1)) = none ∧
    daily_per (some 10) (some (1 / 1000)) = none := by
  refine ⟨?_, ?_, by norm_num [daily_per], by norm_num [daily_per]⟩
  · by_cases hc : p / e < 0 ∨ 1000 < p / e
    · simp [daily_per, he, hc]
    · simp [daily_per, he, hc]
  · intro hc
    simp [daily_per, he, hc]

/-- Witness for C4 at price 10 and TTM EPS 2. -/
theorem c4_per_clipping_witness :
    ((2 : ℚ) ≠ 0) ∧
    ((daily_per (some 10) (some 2) = none ↔ ((10 : ℚ) / 2 < 0 ∨ 1000 < (10 : ℚ) / 2)) ∧
      (¬((10 : ℚ) / 2 < 0 ∨ 1000 < (10 : ℚ) / 2) →
        daily_per (some 10) (some 2) = some ((10 : ℚ) / 2)) ∧
      daily_per (some 10) (some (-1)) = none ∧
      daily_per (some 10) (some (1 / 1000)) = none) :=
  ⟨by decide, c4_per_clipping 10 2 (by decide)⟩

theorem getD_proj_fst (rows : List (Option ℚ × Option ℚ)) (i : Nat) :
    (rows.getD i (none, none)).1 = (rows.map Prod.fst).getD i none := by
  by_cases h : i < rows.length
  · rw [List.getD_eq_getElem _ _ h, List.getD_eq_getElem _ _ (by simpa using h),
      List.getElem_map]
  · rw [List.getD_eq_default _ _ (by omega), List.getD_eq_default _ _ (by simp; omega)]

theorem getD_proj_snd (rows : List (Option ℚ × Option ℚ)) (i : Nat) :
    (rows.getD i (none, none)).2 = (rows.map Prod.snd).getD i none := by
  by_cases h : i < rows.length
  · rw [List.getD_eq_getElem _ _ h, List.getD_eq_getElem _ _ (by simpa using h),
      List.getElem_map]
  · rw [List.getD_eq_default _ _ (by omega), List.getD_eq_default _ _ (by simp; omega)]

theorem yoySingle_eq_loop (vals : List (Option ℚ)) :
    (List.range vals.length).map (fun idx =>
      if 4 ≤ idx then
        match vals.getD idx none, vals.getD (idx - 4) none with
        | some curr, some prev =>
            if prev ≠ 0 then some ((curr - prev) / |prev| * 100) else none
        | _, _ => none
      else none) = yoySingle vals := by
  apply List.ext_getElem
  · simp [yoySingle]
    omega
  · intro i h1 h2
    have hi : i < vals.length := by simpa using h1
    rw [List.getElem_map, List.getElem_range]
    by_cases h4 : 4 ≤ i
    · have hmin : min 4 vals.length = 4 := by omega
      have hrep : ¬ i < (List.replicate (min 4 vals.length) (none : Option ℚ)).length := by
        simp [hmin]
        omega
      rw [if_pos h4]
      simp only [yoySingle]
      rw [List.getElem_append, dif_neg hrep, List.getElem_zipWith]
      have e1 : i - (List.replicate (min 4 vals.length) (none : Option ℚ)).length =
          i - 4 := by
        simp [hmin]
      simp only [List.getElem_drop, e1, show 4 + (i - 4) = i from by omega]
      rw [List.getD_eq_getElem _ _ hi,
        List.getD_eq_getElem _ _ (show i - 4 < vals.length from by omega)]
    · have hrep : i < (List.replicate (min 4 vals.length) (none : Option ℚ)).length := by
        simp
        omega
      rw [if_neg h4]
      simp only [yoySingle]
      rw [List.getElem_append, dif_pos hrep, List.getElem_replicate]

theorem yoy_pair_fst (rows : List (Option ℚ × Option ℚ)) :
    (yoy_pair rows).map Prod.fst = yoySingle (rows.map Prod.fst) := by
  rw [yoy_pair, List.map_map, ← yoySingle_eq_loop (rows.map Prod.fst),
    List.length_map]
  apply List.map_congr_left
  intro idx _
  show Prod.fst (if 4 ≤ idx then _ else _) = _
  rw [apply_ite Prod.fst]
  by_cases h4 : 4 ≤ idx
  · rw [if_pos h4, if_pos h4]
    show (match (rows.getD idx (none, none)).1, (rows.getD (idx - 4) (none, none)).1 with
      | some curr, some prev =>
          if prev ≠ 0 then some ((curr - prev) / |prev| * 100) else none
      | _, _ => none) = _
    rw [getD_proj_fst rows idx, getD_proj_fst rows (idx - 4)]
  · rw [if_neg h4, if_neg h4]

theorem yoy_pair_snd (rows : List (Option ℚ × Option ℚ)) :
    (yoy_pair rows).map Prod.snd = yoySingle (rows.map Prod.snd) := by
  rw [yoy_pair, List.map_map, ← yoySingle_eq_loop (rows.map Prod.snd),
    List.length_map]
  apply List.map_congr_left
  intro idx _
  show Prod.snd (if 4 ≤ idx then _ else _) = _
  rw [apply_ite Prod.snd]
  by_cases h4 : 4 ≤ idx
  · rw [if_pos h4, if_pos h4]
    show (match (rows.getD idx (none, none)).2, (rows.getD (idx - 4) (none, none)).2 with
      | some curr, some prev =>
          if prev ≠ 0 then some ((curr - prev) / |prev| * 100) else none
      | _, _ => none) = _
    rw [getD_proj_snd rows idx, getD_proj_snd rows (idx - 4)]
  · rw [if_neg h4, if_neg h4]

/-- C5: the YoY loop computes, identically for the revenue column and the net
income column, the growth `(curr − prev)/|prev| × 100` against the value four
quarters earlier, undefined exactly when the index is below 4, either value is
missing, or the earlier value is zero; revenue `[100,100,100,100,150]` yields
growth 50 at index 4 and no value at indices 0-3. -/
theorem c5_yoy_growth (rows : List (Option ℚ × Option ℚ)) :
    (yoy_pair rows).map Prod.fst = yoySingle (rows.map Prod.fst) ∧
    (yoy_pair rows).map Prod.snd = yoySingle (rows.map Prod.snd) ∧
    yoySingle [some 100, some 100, some 100, some 100, some 150] =
      [none, none, none, none, some 50] ∧
    (yoy_pair [(some 100, some 100), (some 100, some 100), (some 100, some 100),
        (some 100, some 100), (some 150, some 150)]).map Prod.fst =
      [none, none, none, none, some 50] := by
  have hrep : List.replicate 4 (none : Option ℚ) = [none, none, none, none] := by
    decide
  refine ⟨yoy_pair_fst rows, yoy_pair_snd rows, ?_, ?_⟩
  · norm_num [yoySingle, hrep]
  · norm_num [yoy_pair, List.range_succ]

/-- C9: the operating margin is produced only when revenue and operating income
are both truthy and revenue is nonzero; consequently a quarter whose operating
income is exactly 0 gets a missing margin even with positive revenue (where a
0% margin would be well-defined), and `get_quarterly_financials` records that
missing margin. -/
theorem c9_operating_margin_truthiness (r o : ℚ) (d : Int) (n : Option ℚ)
    (hr : 0 < r) :
    operating_margin (some r) (some 0) = none ∧
    (o ≠ 0 → operating_margin (some r) (some o) = some (o / r * 100)) ∧
    (get_quarterly_financials (.ok [(d, ⟨some r, some 0, n⟩)])).map
      (fun qr => qr.operating_margin) = [none] := by
  have h0 : operating_margin (some r) (some 0) = none := by
    simp [operating_margin, truthy]
  refine ⟨h0, ?_, ?_⟩
  · intro ho
    simp [operating_margin, truthy, hr.ne', ho]
  · simp [get_quarterly_financials, h0]

/-- Witness for C9 with revenue 5, operating income 3, quarter date 0. -/
theorem c9_operating_margin_truthiness_witness :
    ((0 : ℚ) < 5) ∧
    (operating_margin (some 5) (some 0) = none ∧
      ((3 : ℚ) ≠ 0 → operating_margin (some 5) (some 3) = some ((3 : ℚ) / 5 * 100)) ∧
      (get_quarterly_financials (.ok [((0 : Int), ⟨some 5, some 0, none⟩)])).map
        (fun qr => qr.operating_margin) = [none]) :=
  ⟨by decide, c9_operating_margin_truthiness 5 3 0 none (by decide)⟩

/-- `get_eps_data` (lines 101-148): the surrounding try/except catches any
fetch exception and yields an empty table.  Columns: EPS estimate, reported
EPS, surprise percentage (the string-valued consensus label column carries no
numeric value and is not modelled). -/
def get_eps_data (fetch : Except String (List (Int × (Fin 3 → Option ℚ)))) :
    List (Int × (Fin 3 → Option ℚ)) :=
  match fetch with
  | .error _ => []
  | .ok rows => rows

/-- `get_buyback_data` (lines 151-180): the surrounding try/except catches any
fetch exception and yields an empty table.  Columns: buyback, dividends. -/
def get_buyback_data (fetch : Except String (List (Int × (Fin 2 → Option ℚ)))) :
    List (Int × (Fin 2 → Option ℚ)) :=
  match fetch with
  | .error _ => []
  | .ok rows => rows

/-- The five upstream fetches a `process_company` run performs (lines
255-281): the daily price download and the four per-metric sources.  Each
step's outcome — a result, or a raised exception — is an explicit input of
the model. -/
structure CompanySteps where
  price_fetch : Except String (List (Int × ℚ))
  fin_fetch : Except String (List (Int × QuarterIncome))
  eps_fetch : Except String (List (Int × (Fin 3 → Option ℚ)))
  buyback_fetch : Except String (List (Int × (Fin 2 → Option ℚ)))
  ttm_fetch : Except String ((List (Int × Option ℚ)) × Option ℚ)

/-- One row of the final merged daily table (lines 284-359). -/
structure ResultRow where
  date : Int
  price : ℚ
  revenue : Option ℚ
  operating_income : Option ℚ
  operating_margin : Option ℚ
  net_income : Option ℚ
  eps_estimate : Option ℚ
  eps_actual : Option ℚ
  surprise : Option ℚ
  buyback : Option ℚ
  dividends : Option ℚ
  per : Option ℚ
  yoy_revenue : Option ℚ
  yoy_net_income : Option ℚ

/-- `process_company` of `company_financials.py` (lines 249-374) at the
granularity of its fetch steps.  The daily price download (line 258, via
`get_daily_stock_data`, lines 35-58) has no try/except around it, so a raised
exception propagates out of `process_company` and aborts the caller's loop
over the remaining companies (line 392); every other step is guarded by its
own try/except.  An empty price table returns early with no output (lines
260-262).  The merge conditionals `if not X_daily.empty` (lines 287-299, 302,
311, 341) only distinguish whether a metric's columns exist at all; an absent
column and an all-`NaN` column are both modelled as `none` cells. -/
def process_company (s : CompanySteps) : Except String (List ResultRow) :=
  match s.price_fetch with
  | .error e => .error e
  | .ok prices =>
    if prices.isEmpty then .ok []
    else
      let daily_index := prices.map Prod.fst
      let financials_df := get_quarterly_financials s.fin_fetch
      let financials_daily := expand_to_daily (financials_df.map (fun qr =>
        (qr.quarter_date,
          ![qr.revenue, qr.operating_income, qr.operating_margin, qr.net_income])))
        daily_index
      let eps_daily := expand_to_daily (get_eps_data s.eps_fetch) daily_index
      let buyback_daily := expand_to_daily (get_buyback_data s.buyback_fetch) daily_index
      let ttm_eps_df := calculate_trailing_eps s.ttm_fetch
      let ttm_daily := expand_to_daily (ttm_eps_df.map (fun t =>
        (t.1, fun _ : Fin 1 => some t.2))) daily_index
      let sorted_fin := financials_df.insertionSort
        (fun a b => a.quarter_date ≤ b.quarter_date)
      let yoy_q := yoy_pair (sorted_fin.map (fun qr => (qr.revenue, qr.net_income)))
      let yoy_daily := expand_to_daily ((sorted_fin.zip yoy_q).map (fun rg =>
        (rg.1.quarter_date, ![rg.2.1, rg.2.2]))) daily_index
      .ok ((List.range prices.length).map (fun i =>
        ⟨(prices.getD i (0, 0)).1, (prices.getD i (0, 0)).2,
          (financials_daily.getD i (0, fun _ => none)).2 0,
          (financials_daily.getD i (0, fun _ => none)).2 1,
          (financials_daily.getD i (0, fun _ => none)).2 2,
          (financials_daily.getD i (0, fun _ => none)).2 3,
          (eps_daily.getD i (0, fun _ => none)).2 0,
          (eps_daily.getD i (0, fun _ => none)).2 1,
          (eps_daily.getD i (0, fun _ => none)).2 2,
          (buyback_daily.getD i (0, fun _ => none)).2 0,
          (buyback_daily.getD i (0, fun _ => none)).2 1,
          daily_per (some (prices.getD i (0, 0)).2)
            ((ttm_daily.getD i (0, fun _ => none)).2 0),
          (yoy_daily.getD i (0, fun _ => none)).2 0,
          (yoy_daily.getD i (0, fun _ => none)).2 1⟩))

/-- The per-task result loop of `gemini_finance.process_company` (lines
147-169): each submitted task yields exactly one result row; a task whose
call raises is recorded as an error row and the loop continues.  (The thread
pool's completion order is not modelled: the source appends rows in
completion order, and the claim concerns which rows are produced.) -/
def gemini_collect (tasks : List (Int × String))
    (outcome : Int → String → Except String String) :
    List (Int × String × String) :=
  tasks.map (fun task =>
    match outcome task.1 task.2 with
    | .ok resp => (task.1, task.2, resp)
    | .error err => (task.1, task.2, "오류: " ++ err))

/-- C8: counterexample to the claim as stated.  The daily price download has no
try/except, so its exception escapes `process_company` untouched and aborts
the run: a fetch failure that is fatal rather than degraded to partial
output. -/
theorem c8_stated_counterexample :
    process_company ⟨.error "boom", .ok [], .ok [], .ok [], .ok ([], none)⟩ =
      .error "boom" := rfl

/-- C8 (amended): once the daily price fetch succeeds, `process_company` never
propagates an error; each of the four guarded fetch steps raising is
equivalent to that metric fetching an empty table, leaving every other metric
untouched; and in the LLM batch loop each task yields exactly one output row,
a failed task contributing an error-text row rather than aborting the batch.
A price-fetch exception, by contrast, propagates and is fatal. -/
theorem c8_fetch_isolation (s : CompanySteps) (prices : List (Int × ℚ)) (e : String)
    (tasks : List (Int × String)) (outcome : Int → String → Except String String)
    (d₀ : Int) (t₀ : String) (hp : s.price_fetch = .ok prices) :
    (process_company s).isOk = true ∧
    process_company ⟨s.price_fetch, .error e, s.eps_fetch, s.buyback_fetch, s.ttm_fetch⟩ =
      process_company ⟨s.price_fetch, .ok [], s.eps_fetch, s.buyback_fetch, s.ttm_fetch⟩ ∧
    process_company ⟨s.price_fetch, s.fin_fetch, .error e, s.buyback_fetch, s.ttm_fetch⟩ =
      process_company ⟨s.price_fetch, s.fin_fetch, .ok [], s.buyback_fetch, s.ttm_fetch⟩ ∧
    process_company ⟨s.price_fetch, s.fin_fetch, s.eps_fetch, .error e, s.ttm_fetch⟩ =
      process_company ⟨s.price_fetch, s.fin_fetch, s.eps_fetch, .ok [], s.ttm_fetch⟩ ∧
    process_company ⟨s.price_fetch, s.fin_fetch, s.eps_fetch, s.buyback_fetch, .error e⟩ =
      process_company
        ⟨s.price_fetch, s.fin_fetch, s.eps_fetch, s.buyback_fetch, .ok ([], none)⟩ ∧
    (gemini_collect tasks outcome).length = tasks.length ∧
    ((d₀, t₀) ∈ tasks → outcome d₀ t₀ = .error e →
      (d₀, t₀, "오류: " ++ e) ∈ gemini_collect tasks outcome) := by
  refine ⟨?_, ?_, ?_, ?_, ?_, ?_, ?_⟩
  · simp only [process_company]
    rw [hp]
    split
    · next heq => exact absurd heq (by simp)
    · next pr heq =>
      split
      · rfl
      · rfl
  · simp [process_company, get_quarterly_financials]
  · simp [process_company, get_eps_data]
  · simp [process_company, get_buyback_data]
  · simp [process_company, calculate_trailing_eps]
  · simp [gemini_collect]
  · intro hmem hout
    apply List.mem_map.mpr
    exact ⟨(d₀, t₀), hmem, by simp [hout]⟩

/-- Witness for C8 (amended) on a one-day price series, with every other fetch
empty, and a one-task batch whose call raises. -/
theorem c8_fetch_isolation_witness :
    ((⟨.ok [(0, 5)], .ok [], .ok [], .ok [], .ok ([], none)⟩ : CompanySteps).price_fetch =
      .ok [((0 : Int), (5 : ℚ))]) ∧
    ((process_company
        (⟨.ok [(0, 5)], .ok [], .ok [], .ok [], .ok ([], none)⟩ : CompanySteps)).isOk = true ∧
      process_company ⟨.ok [(0, 5)], .error "x", .ok [], .ok [], .ok ([], none)⟩ =
        process_company ⟨.ok [(0, 5)], .ok [], .ok [], .ok [], .ok ([], none)⟩ ∧
      process_company ⟨.ok [(0, 5)], .ok [], .error "x", .ok [], .ok ([], none)⟩ =
        process_company ⟨.ok [(0, 5)], .ok [], .ok [], .ok [], .ok ([], none)⟩ ∧
      process_company ⟨.ok [(0, 5)], .ok [], .ok [], .error "x", .ok ([], none)⟩ =
        process_company ⟨.ok [(0, 5)], .ok [], .ok [], .ok [], .ok ([], none)⟩ ∧
      process_company ⟨.ok [(0, 5)], .ok [], .ok [], .ok [], .error "x"⟩ =
        process_company ⟨.ok [(0, 5)], .ok [], .ok [], .ok [], .ok ([], none)⟩ ∧
      (gemini_collect [(1, "t")] (fun _ _ => .error "x")).length = [(1, "t")].length ∧
      (((1 : Int), "t") ∈ [((1 : Int), "t")] →
        (fun _ : Int => fun _ : String => (.error "x" : Except String String)) 1 "t" =
          .error "x" →
        ((1 : Int), "t", "오류: " ++ "x") ∈
          gemini_collect [(1, "t")] (fun _ _ => .error "x"))) :=
  ⟨rfl, c8_fetch_isolation ⟨.ok [(0, 5)], .ok [], .ok [], .ok [], .ok ([], none)⟩
    [(0, 5)] "x" [(1, "t")] (fun _ _ => .error "x") 1 "t" rfl⟩

/-- The state-level model of `expand_to_daily` (lines 226-246): the caller
passes a reference into a heap of dataframe objects; the callee's only
in-place mutation is the date-column conversion
`quarterly_df[date_col] = pd.to_datetime(...)` at line 232, performed after
`quarterly_df = quarterly_df.copy()` at line 231 allocated a fresh object at
the end of the heap.  `toDate` stands for `pd.to_datetime`'s per-cell
conversion.  Returns the heap after the call together with the result
table. -/
def expand_to_daily_st {κ α : Type*} (toDate : Int → Int)
    (heap : List (Table κ α)) (q : Nat) (D : List Int) :
    List (Table κ α) × Table κ α :=
  if (heap.getD q []).isEmpty then (heap, D.map (fun d => (d, fun _ => none)))
  else
    let heap' := (heap ++ [heap.getD q []]).set heap.length
      ((heap.getD q []).map (fun row => (toDate row.1, row.2)))
    (heap', expand_core (heap'.getD heap.length []) D)

/-- C10: `expand_to_daily` never mutates the caller's quarterly table — after
the call, the caller's heap cell holds exactly the rows, values and index it
held before, for any date conversion: the in-place column assignment hits only
the fresh copy made at line 231. -/
theorem c10_no_mutation {κ α : Type*} (toDate : Int → Int)
    (heap : List (Table κ α)) (q : Nat) (D : List Int) (hq : q < heap.length) :
    (expand_to_daily_st toDate heap q D).1.getD q [] = heap.getD q [] := by
  simp only [expand_to_daily_st]
  split
  · rfl
  · show (((heap ++ [heap.getD q []]).set heap.length _).getD q []) = _
    rw [List.getD_eq_getElem?_getD, List.getElem?_set_ne (by omega),
      List.getElem?_append_left hq, ← List.getD_eq_getElem?_getD]

/-- Witness for C10: a one-cell heap holding a one-quarter table, with a date
conversion that does change the date. -/
theorem c10_no_mutation_witness :
    (0 < ([[((0 : Int), fun _ : Unit => some (1 : ℚ))]] : List (Table Unit ℚ)).length) ∧
    (expand_to_daily_st (fun t => t + 1)
        ([[((0 : Int), fun _ : Unit => some (1 : ℚ))]] : List (Table Unit ℚ)) 0 [5]).1.getD 0 [] =
      ([[((0 : Int), fun _ : Unit => some (1 : ℚ))]] : List (Table Unit ℚ)).getD 0 [] :=
  ⟨by decide, c10_no_mutation (fun t => t + 1) _ 0 [5] (by decide)⟩

end Danta
